import Mathlib

/-!
# Text-vectorization encoders: verification of the specification

The repository's notebook demonstrates three document-to-vector encoders
(word counts, TF-IDF weighting, feature hashing).  The encoder
implementations themselves are library code that is not part of the
repository's sources, so the definitions below are modelled from the
specification's component design (tokenizer, Count Encoder, TF-IDF
Encoder, Hashing Encoder) and checked against the concrete inputs and
outputs recorded in the notebook.
-/

namespace PrepareTextData

/-! ## Tokenizer -/

/-- Modelled from the spec: the tokenizer/normalizer (§4.1), whose
implementation is library code absent from the sources.  Collect maximal
runs of alphanumeric characters, lower-casing as we go; everything else
(punctuation, whitespace) separates tokens. -/
def tokenRuns : List Char → List Char → List (List Char)
  | [], acc => if acc.isEmpty then [] else [acc.reverse]
  | c :: cs, acc =>
    if c.isAlphanum then tokenRuns cs (c.toLower :: acc)
    else if acc.isEmpty then tokenRuns cs []
    else acc.reverse :: tokenRuns cs []

/-- Modelled from the spec: a surviving token has length ≥ 2 and is not a
digits-only run (§4.1). -/
def keepToken (t : List Char) : Bool :=
  decide (2 ≤ t.length) && ! t.all Char.isDigit

/-- Modelled from the spec: tokenization of a raw document — lower-case,
strip punctuation, split into word tokens, discard short and digits-only
tokens (§4.1).  Tokens are kept as character lists. -/
def tokenize (s : String) : List (List Char) :=
  (tokenRuns s.data []).filter keepToken

/-! ## Lexicographic comparison of tokens -/

/-- Lexicographic (non-strict) comparison of tokens, used to order the
vocabulary. -/
def tokenLe : List Char → List Char → Bool
  | [], _ => true
  | _ :: _, [] => false
  | a :: as, b :: bs => decide (a < b) || (a == b && tokenLe as bs)

theorem tokenLe_refl (a : List Char) : tokenLe a a = true := by
  induction a with
  | nil => rfl
  | cons c cs ih => simp [tokenLe, ih]

theorem tokenLe_total (a b : List Char) : tokenLe a b || tokenLe b a := by
  induction a generalizing b with
  | nil => simp [tokenLe]
  | cons c cs ih =>
    cases b with
    | nil => simp [tokenLe]
    | cons d ds =>
      rcases lt_trichotomy c d with h | h | h
      · simp [tokenLe, h]
      · subst h
        simpa [tokenLe] using ih ds
      · simp [tokenLe, h]

theorem tokenLe_trans (a b c : List Char) (hab : tokenLe a b) (hbc : tokenLe b c) :
    tokenLe a c = true := by
  induction a generalizing b c with
  | nil => simp [tokenLe]
  | cons x xs ih =>
    cases b with
    | nil => simp [tokenLe] at hab
    | cons y ys =>
      cases c with
      | nil => simp [tokenLe] at hbc
      | cons z zs =>
        simp only [tokenLe, Bool.or_eq_true, decide_eq_true_eq, Bool.and_eq_true,
          beq_iff_eq] at hab hbc ⊢
        rcases hab with hab | ⟨rfl, hab⟩
        · rcases hbc with hbc | ⟨rfl, _⟩
          · exact Or.inl (lt_trans hab hbc)
          · exact Or.inl hab
        · rcases hbc with hbc | ⟨rfl, hbc⟩
          · exact Or.inl hbc
          · exact Or.inr ⟨rfl, ih ys zs hab hbc⟩

/-- `tokenLe` is the (reflexive closure of the) lexicographic order on
character lists. -/
theorem tokenLe_iff (a b : List Char) :
    tokenLe a b = true ↔ a = b ∨ List.Lex (· < ·) a b := by
  induction a generalizing b with
  | nil =>
    cases b with
    | nil => simp [tokenLe]
    | cons d ds => simp [tokenLe, List.Lex.nil]
  | cons c cs ih =>
    cases b with
    | nil =>
      simp only [tokenLe, Bool.false_eq_true, false_iff]
      rintro (h | h)
      · exact List.noConfusion h
      · cases h
    | cons d ds =>
      simp only [tokenLe, Bool.or_eq_true, decide_eq_true_eq, Bool.and_eq_true, beq_iff_eq]
      constructor
      · rintro (h | ⟨rfl, h⟩)
        · exact Or.inr (List.Lex.rel h)
        · rcases (ih ds).mp h with rfl | h
          · exact Or.inl rfl
          · exact Or.inr (List.Lex.cons h)
      · rintro (h | h)
        · injection h with h1 h2
          exact Or.inr ⟨h1, by rw [h2]; exact tokenLe_refl ds⟩
        · cases h with
          | rel h => exact Or.inl h
          | cons h => exact Or.inr ⟨rfl, (ih ds).mpr (Or.inr h)⟩

/-- The lexicographic order on tokens as a proposition, used to sort the
vocabulary. -/
def tokenLE (a b : List Char) : Prop := tokenLe a b = true

instance : DecidableRel tokenLE :=
  fun a b => inferInstanceAs (Decidable (tokenLe a b = true))

instance : IsTotal (List Char) tokenLE where
  total a b := by
    have h := tokenLe_total a b
    rcases Bool.or_eq_true _ _ |>.mp h with h | h
    · exact Or.inl h
    · exact Or.inr h

instance : IsTrans (List Char) tokenLE where
  trans a b c := tokenLe_trans a b c

/-! ## Count Encoder -/

/-- Modelled from the spec: error outcomes of the encoders (§7). -/
inductive VecError where
  | emptyVocabulary
  | notFitted
  | invalidConfiguration
  deriving DecidableEq

/-- Modelled from the spec: the vocabulary learned by a fit — the distinct
surviving tokens of the corpus in ascending lexicographic order (§4.2). -/
def buildVocabulary (corpus : List String) : List (List Char) :=
  ((corpus.map tokenize).flatten.dedup).insertionSort tokenLE

deriving instance DecidableEq for Except

/-- Modelled from the spec: the Count Encoder's state — the fitted
vocabulary, or `none` before a successful fit (§4.2). -/
structure CountVectorizer where
  vocabulary_ : Option (List (List Char)) := none
  deriving DecidableEq

/-- Modelled from the spec: `fit` of the Count Encoder (§4.2). -/
def CountVectorizer.fit (corpus : List String) : Except VecError CountVectorizer :=
  let vocab := buildVocabulary corpus
  if vocab.isEmpty then .error .emptyVocabulary else .ok ⟨some vocab⟩

/-- Modelled from the spec: the count vector of one document with respect
to a vocabulary — entry `i` is the number of occurrences of vocabulary
token `i` in the document (§4.2). -/
def countsFor (vocab : List (List Char)) (doc : String) : List Nat :=
  vocab.map fun t => (tokenize doc).count t

/-- Modelled from the spec: `transform` of the Count Encoder — one count
vector per document; fails with `NotFittedError` before a fit (§4.2). -/
def CountVectorizer.transform (v : CountVectorizer) (docs : List String) :
    Except VecError (List (List Nat)) :=
  match v.vocabulary_ with
  | none => .error .notFitted
  | some vocab => .ok (docs.map (countsFor vocab))

/-! ## TF-IDF Encoder -/

/-- Modelled from the spec: document frequency — the number of corpus
documents containing the token at least once (§4.3). -/
def documentFrequency (corpus : List String) (t : List Char) : Nat :=
  (corpus.filter fun d => (tokenize d).contains t).length

/-- Modelled from the spec: the smoothed inverse-document-frequency weight
`idf = ln((1 + N) / (1 + df)) + 1` (§4.3). -/
noncomputable def idf (N d : ℕ) : ℝ :=
  Real.log ((1 + N) / (1 + d)) + 1

/-- Modelled from the spec: the TF-IDF Encoder's state — the fitted
vocabulary (or `none` before a fit), the corpus size, and the per-index
document frequencies (§4.3). -/
structure TfidfVectorizer where
  vocabulary_ : Option (List (List Char)) := none
  ndocs : Nat := 0
  dfs : List Nat := []
  deriving DecidableEq

/-- Modelled from the spec: `fit` of the TF-IDF Encoder — Count Encoder
fit semantics plus the per-index document frequencies (§4.3). -/
def TfidfVectorizer.fit (corpus : List String) : Except VecError TfidfVectorizer :=
  let vocab := buildVocabulary corpus
  if vocab.isEmpty then .error .emptyVocabulary
  else .ok ⟨some vocab, corpus.length, vocab.map (documentFrequency corpus)⟩

/-- Modelled from the spec: the stored IDF table, one weight per
vocabulary index (§4.3). -/
noncomputable def TfidfVectorizer.idf_ (v : TfidfVectorizer) : List ℝ :=
  v.dfs.map (idf v.ndocs)

/-- Sum of squares of a vector's entries. -/
def sumSq (v : List ℝ) : ℝ := (v.map fun x => x ^ 2).sum

/-- Euclidean (L2) norm of a vector. -/
noncomputable def l2norm (v : List ℝ) : ℝ := Real.sqrt (sumSq v)

/-- Modelled from the spec: per-document L2 normalization — divide by the
Euclidean norm, leaving the vector unchanged when the norm is zero so that
no division by zero occurs (§4.3, §4.4). -/
noncomputable def l2normalize (v : List ℝ) : List ℝ :=
  if l2norm v = 0 then v else v.map fun x => x / l2norm v

/-- Modelled from the spec: the un-normalized TF-IDF row of one document —
raw term counts multiplied entrywise by the idf weights (§4.3). -/
def tfWeights (vocab : List (List Char)) (idfs : List ℝ) (doc : String) : List ℝ :=
  List.zipWith (fun (c : Nat) (w : ℝ) => (c : ℝ) * w) (countsFor vocab doc) idfs

/-- Modelled from the spec: the TF-IDF row of one document — raw term
counts multiplied entrywise by the idf weights, then L2-normalized
(§4.3). -/
noncomputable def tfidfRow (vocab : List (List Char)) (idfs : List ℝ) (doc : String) :
    List ℝ :=
  l2normalize (tfWeights vocab idfs doc)

/-- Modelled from the spec: `transform` of the TF-IDF Encoder — one
normalized weighted row per document; fails with `NotFittedError` before a
fit (§4.3). -/
noncomputable def TfidfVectorizer.transform (v : TfidfVectorizer) (docs : List String) :
    Except VecError (List (List ℝ)) :=
  match v.vocabulary_ with
  | none => .error .notFitted
  | some vocab => .ok (docs.map (tfidfRow vocab v.idf_))

/-! ## Hashing Encoder -/

/-- Modelled from the spec: the Hashing Encoder's configuration — only
the fixed output width (§4.4). -/
structure HashingVectorizer where
  n_features : Nat
  deriving DecidableEq

/-- Modelled from the spec: the signed accumulation into slot `i` — each
token whose hash lands on slot `i` contributes `+1` or `−1` according to
its sign hash (§4.4).  The hash and sign functions are parameters, since
the spec leaves the exact hash an implementation detail. -/
def signedCount (toks : List (List Char)) (hash : List Char → Nat)
    (sign : List Char → Bool) (W i : Nat) : ℝ :=
  ((toks.filter fun t => hash t % W == i).map fun t =>
    if sign t then (1 : ℝ) else -1).sum

/-- Modelled from the spec: the un-normalized hashed row of one document —
width-`W` vector of signed accumulations (§4.4). -/
def rawHashRow (W : Nat) (hash : List Char → Nat) (sign : List Char → Bool)
    (doc : String) : List ℝ :=
  (List.range W).map (signedCount (tokenize doc) hash sign W)

/-- Modelled from the spec: the hashed row of one document, L2-normalized
with the same zero-norm guard as TF-IDF (§4.4). -/
noncomputable def hashRow (W : Nat) (hash : List Char → Nat) (sign : List Char → Bool)
    (doc : String) : List ℝ :=
  l2normalize (rawHashRow W hash sign doc)

/-- Modelled from the spec: `transform` of the Hashing Encoder — stateless,
no fit phase, one hashed row per document (§4.4). -/
noncomputable def HashingVectorizer.transform (v : HashingVectorizer)
    (hash : List Char → Nat) (sign : List Char → Bool) (docs : List String) :
    List (List ℝ) :=
  docs.map (hashRow v.n_features hash sign)

/-! ## Sparse representation -/

/-- Modelled from the spec: the sparse view of a count vector — exactly
its nonzero `(index, value)` pairs (§3, §6). -/
def sparsifyN (v : List Nat) : List (Nat × Nat) :=
  v.enum.filter fun p => p.2 != 0

/-- Modelled from the spec: the sparse view of a real-valued vector —
exactly its nonzero `(index, value)` pairs (§3, §6). -/
noncomputable def sparsifyR (v : List ℝ) : List (Nat × ℝ) :=
  v.enum.filter fun p => decide (p.2 ≠ 0)

/-! ## Support lemmas about sums of squares and L2 normalization -/

theorem sumSq_nonneg (v : List ℝ) : 0 ≤ sumSq v := by
  refine List.sum_nonneg ?_
  intro x hx
  rcases List.mem_map.mp hx with ⟨y, _, rfl⟩
  exact sq_nonneg y

theorem l2norm_nonneg (v : List ℝ) : 0 ≤ l2norm v :=
  Real.sqrt_nonneg _

theorem l2norm_eq_zero_iff (v : List ℝ) : l2norm v = 0 ↔ sumSq v = 0 := by
  unfold l2norm
  constructor
  · intro h
    have := (Real.sqrt_eq_zero (sumSq_nonneg v)).mp h
    exact this
  · intro h
    rw [h, Real.sqrt_zero]

theorem eq_zero_of_sumSq_eq_zero {v : List ℝ} (h : sumSq v = 0) :
    ∀ x ∈ v, x = 0 := by
  intro x hx
  have hsq : x ^ 2 = 0 := by
    refine List.all_zero_of_le_zero_le_of_sum_eq_zero ?_ h ?_
    · intro y hy
      rcases List.mem_map.mp hy with ⟨z, _, rfl⟩
      exact sq_nonneg z
    · exact List.mem_map.mpr ⟨x, hx, rfl⟩
  exact (pow_eq_zero_iff two_ne_zero).mp hsq

theorem sumSq_pos_of_mem {v : List ℝ} {x : ℝ} (hx : x ∈ v) (hx0 : x ≠ 0) :
    0 < sumSq v := by
  have h1 : x ^ 2 ≤ sumSq v := by
    refine List.single_le_sum ?_ _ (List.mem_map.mpr ⟨x, hx, rfl⟩)
    intro y hy
    rcases List.mem_map.mp hy with ⟨z, _, rfl⟩
    exact sq_nonneg z
  exact lt_of_lt_of_le (pow_two_pos_of_ne_zero hx0) h1

theorem sumSq_map_div (v : List ℝ) (c : ℝ) :
    sumSq (v.map fun x => x / c) = sumSq v / c ^ 2 := by
  induction v with
  | nil => simp [sumSq]
  | cons x xs ih =>
    simp only [sumSq, List.map_cons, List.map_map, List.sum_cons] at ih ⊢
    rw [ih]
    rw [div_pow, add_div]

theorem l2norm_l2normalize {v : List ℝ} (h : l2norm v ≠ 0) :
    l2norm (l2normalize v) = 1 := by
  rw [l2normalize, if_neg h]
  have hs : sumSq v ≠ 0 := fun h0 => h ((l2norm_eq_zero_iff v).mpr h0)
  have hsq : (l2norm v) ^ 2 = sumSq v := Real.sq_sqrt (sumSq_nonneg v)
  rw [l2norm, sumSq_map_div, hsq, div_self hs, Real.sqrt_one]

theorem l2normalize_of_l2norm_eq_zero {v : List ℝ} (h : l2norm v = 0) :
    l2normalize v = v := by
  rw [l2normalize, if_pos h]

theorem length_l2normalize (v : List ℝ) : (l2normalize v).length = v.length := by
  unfold l2normalize
  split
  · rfl
  · exact List.length_map _ _

theorem sumSq_zeros {α : Type} (l : List α) :
    sumSq (l.map fun _ => (0 : ℝ)) = 0 := by
  simp [sumSq]

/-! ## Support lemmas about the vocabulary -/

theorem buildVocabulary_sorted (corpus : List String) :
    (buildVocabulary corpus).Sorted tokenLE :=
  List.sorted_insertionSort tokenLE _

theorem buildVocabulary_nodup (corpus : List String) :
    (buildVocabulary corpus).Nodup :=
  ((List.perm_insertionSort tokenLE _).nodup_iff).mpr (List.nodup_dedup _)

theorem buildVocabulary_sorted_lex (corpus : List String) :
    (buildVocabulary corpus).Pairwise fun a b => List.Lex (· < ·) a b := by
  have h := (buildVocabulary_sorted corpus).and (buildVocabulary_nodup corpus)
  refine h.imp ?_
  rintro a b ⟨hle, hne⟩
  rcases (tokenLe_iff a b).mp hle with rfl | hlex
  · exact absurd rfl hne
  · exact hlex

theorem mem_buildVocabulary {corpus : List String} {t : List Char} :
    t ∈ buildVocabulary corpus ↔ ∃ d ∈ corpus, t ∈ tokenize d := by
  unfold buildVocabulary
  rw [List.mem_insertionSort, List.mem_dedup, List.mem_flatten]
  constructor
  · rintro ⟨l, hl, ht⟩
    rcases List.mem_map.mp hl with ⟨d, hd, rfl⟩
    exact ⟨d, hd, ht⟩
  · rintro ⟨d, hd, ht⟩
    exact ⟨tokenize d, List.mem_map.mpr ⟨d, hd, rfl⟩, ht⟩

/-! ## Support lemmas about document frequency and idf -/

theorem documentFrequency_le_length (corpus : List String) (t : List Char) :
    documentFrequency corpus t ≤ corpus.length :=
  List.length_filter_le _ _

theorem documentFrequency_eq_length {corpus : List String} {t : List Char}
    (h : ∀ d ∈ corpus, t ∈ tokenize d) :
    documentFrequency corpus t = corpus.length := by
  unfold documentFrequency
  rw [List.filter_eq_self.mpr]
  intro d hd
  simp only [List.contains, List.elem_iff]
  exact h d hd

theorem idf_eq (N d : ℕ) :
    idf N d = Real.log (1 + N) - Real.log (1 + d) + 1 := by
  unfold idf
  rw [Real.log_div (by positivity) (by positivity)]

theorem idf_anti {N d₁ d₂ : ℕ} (h : d₁ ≤ d₂) : idf N d₂ ≤ idf N d₁ := by
  rw [idf_eq, idf_eq]
  have : Real.log (1 + (d₁ : ℝ)) ≤ Real.log (1 + (d₂ : ℝ)) := by
    refine Real.log_le_log (by positivity) ?_
    have : (d₁ : ℝ) ≤ (d₂ : ℝ) := by exact_mod_cast h
    linarith
  linarith

theorem idf_strict_anti {N d₁ d₂ : ℕ} (h : d₁ < d₂) : idf N d₂ < idf N d₁ := by
  rw [idf_eq, idf_eq]
  have : Real.log (1 + (d₁ : ℝ)) < Real.log (1 + (d₂ : ℝ)) := by
    refine Real.log_lt_log (by positivity) ?_
    have : (d₁ : ℝ) < (d₂ : ℝ) := by exact_mod_cast h
    linarith
  linarith

theorem idf_pos {N d : ℕ} (h : d ≤ N) : 0 < idf N d := by
  unfold idf
  have hlog : 0 ≤ Real.log ((1 + (N : ℝ)) / (1 + (d : ℝ))) := by
    refine Real.log_nonneg ?_
    rw [le_div_iff₀ (by positivity)]
    have : (d : ℝ) ≤ (N : ℝ) := by exact_mod_cast h
    linarith
  linarith

/-! ## Support lemmas about count vectors and TF-IDF rows -/

theorem countsFor_length (vocab : List (List Char)) (doc : String) :
    (countsFor vocab doc).length = vocab.length :=
  List.length_map _ _

theorem countsFor_eq_zeros {vocab : List (List Char)} {doc : String}
    (h : ∀ t ∈ tokenize doc, t ∉ vocab) :
    countsFor vocab doc = vocab.map fun _ => 0 := by
  unfold countsFor
  refine List.map_congr_left ?_
  intro t ht
  refine List.count_eq_zero.mpr ?_
  intro hmem
  exact h t hmem ht

theorem zipWith_map_zero {α : Type} :
    ∀ (l : List α) (ws : List ℝ), ws.length = l.length →
      List.zipWith (fun (c : Nat) (w : ℝ) => (c : ℝ) * w) (l.map fun _ => (0 : ℕ)) ws =
        l.map fun _ => (0 : ℝ)
  | [], _, _ => by simp
  | a :: l, [], h => by simp at h
  | a :: l, w :: ws, h => by
    simp only [List.map_cons, List.zipWith_cons_cons, Nat.cast_zero, zero_mul,
      List.cons.injEq, true_and]
    exact zipWith_map_zero l ws (by simpa using h)

theorem tfWeights_length (vocab : List (List Char)) (idfs : List ℝ) (doc : String)
    (hlen : idfs.length = vocab.length) :
    (tfWeights vocab idfs doc).length = vocab.length := by
  unfold tfWeights
  rw [List.length_zipWith, countsFor_length, hlen, min_self]

theorem tfWeights_eq_zeros {vocab : List (List Char)} {idfs : List ℝ} {doc : String}
    (hlen : idfs.length = vocab.length)
    (h : ∀ t ∈ tokenize doc, t ∉ vocab) :
    tfWeights vocab idfs doc = vocab.map fun _ => (0 : ℝ) := by
  unfold tfWeights
  rw [countsFor_eq_zeros h]
  exact zipWith_map_zero vocab idfs hlen

theorem tfidfRow_eq_zeros {vocab : List (List Char)} {idfs : List ℝ} {doc : String}
    (hlen : idfs.length = vocab.length)
    (h : ∀ t ∈ tokenize doc, t ∉ vocab) :
    tfidfRow vocab idfs doc = vocab.map fun _ => (0 : ℝ) := by
  unfold tfidfRow
  rw [tfWeights_eq_zeros hlen h]
  refine l2normalize_of_l2norm_eq_zero ?_
  rw [l2norm_eq_zero_iff]
  exact sumSq_zeros vocab

/-- The idf table a fitted TF-IDF encoder stores for the vocabulary built
from `corpus`. -/
noncomputable def fittedIdfs (corpus : List String) : List ℝ :=
  ((buildVocabulary corpus).map (documentFrequency corpus)).map (idf corpus.length)

theorem fittedIdfs_length (corpus : List String) :
    (fittedIdfs corpus).length = (buildVocabulary corpus).length := by
  unfold fittedIdfs
  rw [List.length_map, List.length_map]

theorem sumSq_tfWeights_pos {corpus : List String} {doc : String} {t : List Char}
    (ht : t ∈ tokenize doc) (htv : t ∈ buildVocabulary corpus) :
    0 < sumSq (tfWeights (buildVocabulary corpus) (fittedIdfs corpus) doc) := by
  rcases List.mem_iff_getElem.mp htv with ⟨i, hi, hvi⟩
  have hleni : i < (tfWeights (buildVocabulary corpus) (fittedIdfs corpus) doc).length := by
    rw [tfWeights_length _ _ _ (fittedIdfs_length corpus)]
    exact hi
  have hentry : (tfWeights (buildVocabulary corpus) (fittedIdfs corpus) doc)[i] =
      (((tokenize doc).count (buildVocabulary corpus)[i] : ℝ)) *
        idf corpus.length (documentFrequency corpus (buildVocabulary corpus)[i]) := by
    simp [tfWeights, fittedIdfs, countsFor, List.getElem_zipWith]
  have hcount : 0 < (tokenize doc).count (buildVocabulary corpus)[i] := by
    rw [hvi]
    exact List.count_pos_iff.mpr ht
  have hidf : 0 < idf corpus.length (documentFrequency corpus (buildVocabulary corpus)[i]) :=
    idf_pos (documentFrequency_le_length corpus _)
  have hne : (tfWeights (buildVocabulary corpus) (fittedIdfs corpus) doc)[i] ≠ 0 := by
    rw [hentry]
    have hc : (0 : ℝ) < ((tokenize doc).count (buildVocabulary corpus)[i] : ℝ) := by
      exact_mod_cast hcount
    exact (mul_pos hc hidf).ne'
  exact sumSq_pos_of_mem (List.getElem_mem hleni) hne

theorem l2norm_tfidfRow_eq_one {corpus : List String} {doc : String} {t : List Char}
    (ht : t ∈ tokenize doc) (htv : t ∈ buildVocabulary corpus) :
    l2norm (tfidfRow (buildVocabulary corpus) (fittedIdfs corpus) doc) = 1 := by
  unfold tfidfRow
  refine l2norm_l2normalize ?_
  rw [Ne, l2norm_eq_zero_iff]
  exact (sumSq_tfWeights_pos ht htv).ne'

/-! ## Support lemmas about the Hashing Encoder -/

theorem rawHashRow_length (W : Nat) (hash : List Char → Nat) (sign : List Char → Bool)
    (doc : String) : (rawHashRow W hash sign doc).length = W := by
  simp [rawHashRow]

theorem hashRow_length (W : Nat) (hash : List Char → Nat) (sign : List Char → Bool)
    (doc : String) : (hashRow W hash sign doc).length = W := by
  rw [hashRow, length_l2normalize, rawHashRow_length]

theorem rawHashRow_getD {W i : Nat} (hash : List Char → Nat) (sign : List Char → Bool)
    (doc : String) (hi : i < W) :
    (rawHashRow W hash sign doc).getD i 0 =
      signedCount (tokenize doc) hash sign W i := by
  have hlen : i < (rawHashRow W hash sign doc).length := by
    rw [rawHashRow_length]; exact hi
  rw [List.getD_eq_getElem?_getD, List.getElem?_eq_getElem hlen]
  simp [rawHashRow]

/-! ## Support lemmas about the sparse representation -/

theorem sparsifyN_sound {v : List Nat} {p : Nat × Nat} (hp : p ∈ sparsifyN v) :
    p.2 ≠ 0 ∧ p.1 < v.length ∧ v.getD p.1 0 = p.2 := by
  obtain ⟨i, x⟩ := p
  unfold sparsifyN at hp
  rcases List.mem_filter.mp hp with ⟨hmem, hval⟩
  have hget : v[(i, x).1]? = some (i, x).2 := List.mk_mem_enum_iff_getElem?.mp hmem
  have hlt : (i, x).1 < v.length := by
    by_contra h
    rw [List.getElem?_eq_none (by omega)] at hget
    exact Option.noConfusion hget
  refine ⟨by simpa using hval, hlt, ?_⟩
  rw [List.getD_eq_getElem?_getD, hget]
  rfl

theorem sparsifyN_complete {v : List Nat} {i : Nat} (hi : i < v.length)
    (hne : v.getD i 0 ≠ 0) : ∃ p ∈ sparsifyN v, p.1 = i ∧ p.2 = v.getD i 0 := by
  have hget : v.getD i 0 = v[i] := by
    rw [List.getD_eq_getElem?_getD, List.getElem?_eq_getElem hi]
    rfl
  refine ⟨(i, v[i]), ?_, rfl, hget.symm⟩
  unfold sparsifyN
  refine List.mem_filter.mpr ⟨?_, ?_⟩
  · exact List.mk_mem_enum_iff_getElem?.mpr (List.getElem?_eq_getElem hi)
  · simp only [bne_iff_ne, ne_eq]
    rw [hget] at hne
    simpa using hne

theorem sparsifyR_sound {v : List ℝ} {p : Nat × ℝ} (hp : p ∈ sparsifyR v) :
    p.2 ≠ 0 ∧ p.1 < v.length ∧ v.getD p.1 0 = p.2 := by
  obtain ⟨i, x⟩ := p
  unfold sparsifyR at hp
  rcases List.mem_filter.mp hp with ⟨hmem, hval⟩
  have hget : v[(i, x).1]? = some (i, x).2 := List.mk_mem_enum_iff_getElem?.mp hmem
  have hlt : (i, x).1 < v.length := by
    by_contra h
    rw [List.getElem?_eq_none (by omega)] at hget
    exact Option.noConfusion hget
  refine ⟨by simpa using hval, hlt, ?_⟩
  rw [List.getD_eq_getElem?_getD, hget]
  rfl

theorem sparsifyR_complete {v : List ℝ} {i : Nat} (hi : i < v.length)
    (hne : v.getD i 0 ≠ 0) : ∃ p ∈ sparsifyR v, p.1 = i ∧ p.2 = v.getD i 0 := by
  have hget : v.getD i 0 = v[i] := by
    rw [List.getD_eq_getElem?_getD, List.getElem?_eq_getElem hi]
    rfl
  refine ⟨(i, v[i]), ?_, rfl, hget.symm⟩
  unfold sparsifyR
  refine List.mem_filter.mpr ⟨?_, ?_⟩
  · exact List.mk_mem_enum_iff_getElem?.mpr (List.getElem?_eq_getElem hi)
  · rw [hget] at hne
    simpa using hne

/-! ## Characterization of successful fits -/

theorem countFit_ok {corpus : List String} {v : CountVectorizer}
    (h : CountVectorizer.fit corpus = .ok v) :
    v = ⟨some (buildVocabulary corpus)⟩ := by
  unfold CountVectorizer.fit at h
  by_cases hempty : (buildVocabulary corpus).isEmpty
  · rw [if_pos hempty] at h
    exact absurd h (by simp)
  · rw [if_neg hempty] at h
    injection h with h
    exact h.symm

theorem tfidfFit_ok {corpus : List String} {v : TfidfVectorizer}
    (h : TfidfVectorizer.fit corpus = .ok v) :
    v = ⟨some (buildVocabulary corpus), corpus.length,
      (buildVocabulary corpus).map (documentFrequency corpus)⟩ := by
  unfold TfidfVectorizer.fit at h
  by_cases hempty : (buildVocabulary corpus).isEmpty
  · rw [if_pos hempty] at h
    exact absurd h (by simp)
  · rw [if_neg hempty] at h
    injection h with h
    exact h.symm

theorem tfidfFit_idf_ok {corpus : List String} {v : TfidfVectorizer}
    (h : TfidfVectorizer.fit corpus = .ok v) :
    v.idf_ = fittedIdfs corpus := by
  rw [tfidfFit_ok h]
  rfl

/-! ## Example data from the notebook -/

/-- The notebook's single-document corpus. -/
def exampleDoc : String := "The quick brown fox jumped over the lazy dog."

/-- The notebook's three-document TF-IDF corpus. -/
def exampleCorpus3 : List String :=
  ["The quick brown fox jumped over the lazy dog.", "The dog.", "The fox"]

/-- The vocabulary the notebook reports for both example corpora. -/
def exampleVocab : List (List Char) :=
  ["brown".data, "dog".data, "fox".data, "jumped".data, "lazy".data,
    "over".data, "quick".data, "the".data]

/-- The TF-IDF encoder state after fitting the three-document corpus. -/
def tfidfEx : TfidfVectorizer := ⟨some exampleVocab, 3, [1, 2, 2, 1, 1, 1, 1, 3]⟩

/-- The stored idf weight a fitted TF-IDF encoder assigns to a token. -/
noncomputable def idfAt (v : TfidfVectorizer) (t : List Char) : ℝ :=
  v.idf_.getD ((v.vocabulary_.getD []).indexOf t) 0

/-! ## Claims -/

/-- C1: fitting the Count Encoder on the single-document corpus
`["The quick brown fox jumped over the lazy dog."]` yields a vocabulary of
exactly 8 tokens, with index 7 assigned to "the", and transforming that
same document yields the vector `[1, 1, 1, 1, 1, 1, 1, 2]` — value 2 at
the slot for "the" and 1 at every other occupied slot. -/
theorem claim_C1 :
    CountVectorizer.fit [exampleDoc] = .ok ⟨some exampleVocab⟩ ∧
    exampleVocab.length = 8 ∧
    exampleVocab.indexOf "the".data = 7 ∧
    (CountVectorizer.mk (some exampleVocab)).transform [exampleDoc] =
      .ok [[1, 1, 1, 1, 1, 1, 1, 2]] := by
  refine ⟨by decide, by decide, by decide, by decide⟩

/-- C2: for every fitted corpus of `N` documents, the stored idf weight at
every vocabulary index `i` equals `ln((1 + N) / (1 + df)) + 1` where `df`
is the document frequency of vocabulary token `i`; on the three-document
example corpus the token present in all 3 documents ("the") gets idf 1,
a token present in 2 documents ("dog") gets `ln(4/3) + 1`, and a token
present in 1 document ("quick") gets `ln 2 + 1`. -/
theorem claim_C2 :
    (∀ corpus v, TfidfVectorizer.fit corpus = .ok v →
      ∀ vocab, v.vocabulary_ = some vocab →
        v.idf_.length = vocab.length ∧
        ∀ i, i < vocab.length →
          v.idf_.getD i 0 =
            Real.log ((1 + (corpus.length : ℝ)) /
              (1 + (documentFrequency corpus (vocab.getD i []) : ℝ))) + 1) ∧
    TfidfVectorizer.fit exampleCorpus3 = .ok tfidfEx ∧
    documentFrequency exampleCorpus3 "the".data = 3 ∧
    idfAt tfidfEx "the".data = 1 ∧
    documentFrequency exampleCorpus3 "dog".data = 2 ∧
    idfAt tfidfEx "dog".data = Real.log (4 / 3) + 1 ∧
    documentFrequency exampleCorpus3 "quick".data = 1 ∧
    idfAt tfidfEx "quick".data = Real.log 2 + 1 := by
  refine ⟨?_, by decide, by decide, ?_, by decide, ?_, by decide, ?_⟩
  · intro corpus v hfit vocab hvocab
    unfold TfidfVectorizer.fit at hfit
    by_cases hempty : (buildVocabulary corpus).isEmpty
    · rw [if_pos hempty] at hfit
      exact absurd hfit (by simp)
    · rw [if_neg hempty] at hfit
      injection hfit with hfit
      subst hfit
      simp only [TfidfVectorizer.idf_] at *
      simp only [TfidfVectorizer.vocabulary_, Option.some.injEq] at hvocab
      subst hvocab
      constructor
      · simp
      · intro i hi
        have hi' : i < (((buildVocabulary corpus).map
            (documentFrequency corpus)).map (idf corpus.length)).length := by
          simpa using hi
        rw [List.getD_eq_getElem?_getD, List.getElem?_eq_getElem hi']
        have hvi : i < (buildVocabulary corpus).length := hi
        rw [List.getD_eq_getElem?_getD, List.getElem?_eq_getElem hvi]
        simp [idf]
  · have hidx : exampleVocab.indexOf "the".data = 7 := by decide
    simp only [idfAt, tfidfEx, Option.getD_some, hidx]
    norm_num [idf, TfidfVectorizer.idf_]
  · have hidx : exampleVocab.indexOf "dog".data = 1 := by decide
    simp only [idfAt, tfidfEx, Option.getD_some, hidx]
    norm_num [idf, TfidfVectorizer.idf_]
  · have hidx : exampleVocab.indexOf "quick".data = 6 := by decide
    simp only [idfAt, tfidfEx, Option.getD_some, hidx]
    norm_num [idf, TfidfVectorizer.idf_]

/-- Witness for C2: the general idf formula instantiated at the
three-document example corpus, index 7 ("the"). -/
theorem claim_C2_witness :
    tfidfEx.idf_.getD 7 0 =
      Real.log ((1 + (exampleCorpus3.length : ℝ)) /
        (1 + (documentFrequency exampleCorpus3 (exampleVocab.getD 7 []) : ℝ))) + 1 :=
  (claim_C2.1 exampleCorpus3 tfidfEx (by decide) exampleVocab (by decide)).2 7 (by decide)

/-- C3: for every document transformed by the fitted TF-IDF Encoder, if
the document yields a counted token contribution (a token that is in the
vocabulary) the output row has L2 norm 1, and if it yields none the output
is the all-zero vector with norm 0; for the Hashing Encoder, if the signed
accumulations are not all cancelled (nonzero pre-normalization norm, the
claim's reading of "at least one counted token contribution") the output
row has L2 norm 1, and on zero pre-normalization norm the output is the
unchanged all-zero vector with norm 0.  No division by zero occurs in
either case: the zero-norm branch never divides. -/
theorem claim_C3 :
    (∀ corpus v, TfidfVectorizer.fit corpus = .ok v →
      ∀ vocab, v.vocabulary_ = some vocab →
      ∀ doc : String,
        ((∃ t ∈ tokenize doc, t ∈ vocab) →
          l2norm (tfidfRow vocab v.idf_ doc) = 1) ∧
        ((∀ t ∈ tokenize doc, t ∉ vocab) →
          tfidfRow vocab v.idf_ doc = (vocab.map fun _ => (0 : ℝ)) ∧
          l2norm (tfidfRow vocab v.idf_ doc) = 0)) ∧
    (∀ (W : Nat) (hash : List Char → Nat) (sign : List Char → Bool) (doc : String),
      (l2norm (rawHashRow W hash sign doc) ≠ 0 →
        l2norm (hashRow W hash sign doc) = 1) ∧
      (l2norm (rawHashRow W hash sign doc) = 0 →
        hashRow W hash sign doc = rawHashRow W hash sign doc ∧
        (∀ x ∈ hashRow W hash sign doc, x = 0) ∧
        l2norm (hashRow W hash sign doc) = 0)) := by
  constructor
  · intro corpus v hfit vocab hvocab doc
    have hv := tfidfFit_ok hfit
    have hvv : vocab = buildVocabulary corpus := by
      rw [hv] at hvocab
      exact (Option.some.injEq _ _ ▸ hvocab).symm
    have hidf : v.idf_ = fittedIdfs corpus := tfidfFit_idf_ok hfit
    subst hvv
    rw [hidf]
    constructor
    · rintro ⟨t, ht, htv⟩
      exact l2norm_tfidfRow_eq_one ht htv
    · intro hoov
      have hz : tfidfRow (buildVocabulary corpus) (fittedIdfs corpus) doc =
          (buildVocabulary corpus).map fun _ => (0 : ℝ) :=
        tfidfRow_eq_zeros (fittedIdfs_length corpus) hoov
      refine ⟨hz, ?_⟩
      rw [hz, l2norm_eq_zero_iff]
      exact sumSq_zeros _
  · intro W hash sign doc
    constructor
    · intro hne
      exact l2norm_l2normalize hne
    · intro hzero
      have heq : hashRow W hash sign doc = rawHashRow W hash sign doc :=
        l2normalize_of_l2norm_eq_zero hzero
      refine ⟨heq, ?_, ?_⟩
      · intro x hx
        rw [heq] at hx
        exact eq_zero_of_sumSq_eq_zero ((l2norm_eq_zero_iff _).mp hzero) x hx
      · rw [heq]
        exact hzero

/-- Witness for C3: the TF-IDF branch on the three-document corpus and
the document "The fox" (which has in-vocabulary tokens), and the hashing
branch at width 1 on the document "ab" with a constant hash. -/
theorem claim_C3_witness :
    l2norm (tfidfRow exampleVocab tfidfEx.idf_ "The fox") = 1 ∧
    l2norm (hashRow 1 (fun _ => 0) (fun _ => true) "ab") = 1 := by
  constructor
  · exact (claim_C3.1 exampleCorpus3 tfidfEx (by decide) exampleVocab (by decide)
      "The fox").1 (by decide)
  · refine (claim_C3.2 1 (fun _ => 0) (fun _ => true) "ab").1 ?_
    have ht : tokenize "ab" = ["ab".data] := by decide
    have hrange : List.range 1 = [0] := by decide
    have hraw : rawHashRow 1 (fun _ => 0) (fun _ => true) "ab" = [1] := by
      simp [rawHashRow, signedCount, ht, hrange]
    rw [hraw]
    have : sumSq [(1 : ℝ)] = 1 := by
      norm_num [sumSq]
    rw [l2norm, this, Real.sqrt_one]
    exact one_ne_zero

/-- C4: after a successful Count Encoder fit the vocabulary holds exactly
the distinct surviving tokens of the corpus — every surviving token is a
member, and nothing else is — it is duplicate free, so every such token
holds a unique index, and the indices are in strictly ascending
lexicographic order of the tokens, so the lexicographically smallest token
is at index 0 and the largest at index size − 1; the TF-IDF Encoder fitted
on the same corpus stores the same vocabulary, and `transform` never
alters the fitted vocabulary. -/
theorem claim_C4 :
    ∀ corpus v, CountVectorizer.fit corpus = .ok v →
      ∃ vocab, v.vocabulary_ = some vocab ∧
        (∀ t : List Char, t ∈ vocab ↔ ∃ d ∈ corpus, t ∈ tokenize d) ∧
        vocab.Nodup ∧
        (vocab.Pairwise fun a b => List.Lex (· < ·) a b) ∧
        (∀ i j, i < j → j < vocab.length →
          List.Lex (· < ·) (vocab.getD i []) (vocab.getD j [])) ∧
        (∀ w, TfidfVectorizer.fit corpus = .ok w → w.vocabulary_ = some vocab) ∧
        (∀ docs rows, v.transform docs = .ok rows → v.vocabulary_ = some vocab) := by
  intro corpus v hfit
  have hv := countFit_ok hfit
  refine ⟨buildVocabulary corpus, by rw [hv],
    fun t => mem_buildVocabulary, buildVocabulary_nodup corpus,
    buildVocabulary_sorted_lex corpus, ?_, ?_, ?_⟩
  · intro i j hij hj
    have hi : i < (buildVocabulary corpus).length := lt_trans hij hj
    rw [List.getD_eq_getElem?_getD, List.getElem?_eq_getElem hi,
      List.getD_eq_getElem?_getD, List.getElem?_eq_getElem hj]
    exact (List.pairwise_iff_getElem.mp (buildVocabulary_sorted_lex corpus))
      i j hi hj hij
  · intro w hw
    rw [tfidfFit_ok hw]
  · intro docs rows _
    rw [hv]

/-- Witness for C4: the vocabulary properties instantiated at the
notebook's single-document corpus. -/
theorem claim_C4_witness :
    ∃ vocab, (CountVectorizer.mk (some exampleVocab)).vocabulary_ = some vocab ∧
      (∀ t : List Char, t ∈ vocab ↔ ∃ d ∈ ([exampleDoc] : List String), t ∈ tokenize d) ∧
      vocab.Nodup ∧
      (vocab.Pairwise fun a b => List.Lex (· < ·) a b) ∧
      (∀ i j, i < j → j < vocab.length →
        List.Lex (· < ·) (vocab.getD i []) (vocab.getD j [])) ∧
      (∀ w, TfidfVectorizer.fit [exampleDoc] = .ok w → w.vocabulary_ = some vocab) ∧
      (∀ docs rows, (CountVectorizer.mk (some exampleVocab)).transform docs = .ok rows →
        (CountVectorizer.mk (some exampleVocab)).vocabulary_ = some vocab) :=
  claim_C4 [exampleDoc] (CountVectorizer.mk (some exampleVocab)) (by decide)

/-- The TF-IDF encoder state after fitting the one-document corpus
`["The dog."]`. -/
def tfidfSingle : TfidfVectorizer := ⟨some ["dog".data, "the".data], 1, [1, 1]⟩

theorem fittedIdfs_getD {corpus : List String} {i : Nat}
    (hi : i < (buildVocabulary corpus).length) :
    (fittedIdfs corpus).getD i 0 =
      idf corpus.length
        (documentFrequency corpus ((buildVocabulary corpus).getD i [])) := by
  have hi' : i < (fittedIdfs corpus).length := by
    rw [fittedIdfs_length]
    exact hi
  rw [List.getD_eq_getElem?_getD, List.getElem?_eq_getElem hi',
    List.getD_eq_getElem?_getD, List.getElem?_eq_getElem hi]
  simp [fittedIdfs]

/-- C5 counterexample: on the one-document corpus `["The dog."]` the token
"dog" appears in exactly one document and the token "the" appears in every
document, yet the idf of "dog" is not strictly higher — the claim's strict
inequality fails when the corpus has a single document. -/
theorem claim_C5_counterexample :
    TfidfVectorizer.fit ["The dog."] = .ok tfidfSingle ∧
    (["The dog."] : List String).length = 1 ∧
    documentFrequency ["The dog."] "dog".data = 1 ∧
    documentFrequency ["The dog."] "the".data = 1 ∧
    ¬ idfAt tfidfSingle "dog".data > idfAt tfidfSingle "the".data := by
  refine ⟨by decide, by decide, by decide, by decide, ?_⟩
  have hdog : (["dog".data, "the".data] : List (List Char)).indexOf "dog".data = 0 := by
    decide
  have hthe : (["dog".data, "the".data] : List (List Char)).indexOf "the".data = 1 := by
    decide
  simp only [idfAt, tfidfSingle, Option.getD_some, hdog, hthe, TfidfVectorizer.idf_]
  simp only [List.map_cons, List.map_nil, List.getD_eq_getElem?_getD]
  simp only [List.getElem?_cons_zero, List.getElem?_cons_succ, Option.getD_some]
  exact lt_irrefl _

/-- C5 (amended): for every fitted TF-IDF Encoder the idf weight is
monotonically decreasing in document frequency; a token appearing in every
corpus document receives the minimum value in the idf table; and, provided
the corpus has at least two documents, a token appearing in exactly one
document receives a strictly higher idf than any token appearing in every
document. -/
theorem claim_C5 :
    ∀ corpus v, TfidfVectorizer.fit corpus = .ok v →
      ∀ vocab, v.vocabulary_ = some vocab →
        (∀ i j, i < vocab.length → j < vocab.length →
          documentFrequency corpus (vocab.getD i []) ≤
            documentFrequency corpus (vocab.getD j []) →
          v.idf_.getD j 0 ≤ v.idf_.getD i 0) ∧
        (∀ i, i < vocab.length →
          (∀ d ∈ corpus, vocab.getD i [] ∈ tokenize d) →
          ∀ j, j < vocab.length → v.idf_.getD i 0 ≤ v.idf_.getD j 0) ∧
        (2 ≤ corpus.length →
          ∀ i j, i < vocab.length → j < vocab.length →
          (∀ d ∈ corpus, vocab.getD i [] ∈ tokenize d) →
          documentFrequency corpus (vocab.getD j []) = 1 →
          v.idf_.getD i 0 < v.idf_.getD j 0) := by
  intro corpus v hfit vocab hvocab
  have hv := tfidfFit_ok hfit
  have hvv : vocab = buildVocabulary corpus := by
    rw [hv] at hvocab
    exact (Option.some.injEq _ _ ▸ hvocab).symm
  have hidf : v.idf_ = fittedIdfs corpus := tfidfFit_idf_ok hfit
  subst hvv
  rw [hidf]
  refine ⟨?_, ?_, ?_⟩
  · intro i j hi hj hdf
    rw [fittedIdfs_getD hi, fittedIdfs_getD hj]
    exact idf_anti hdf
  · intro i hi hall j hj
    rw [fittedIdfs_getD hi, fittedIdfs_getD hj]
    have hdfi : documentFrequency corpus ((buildVocabulary corpus).getD i []) =
        corpus.length := documentFrequency_eq_length hall
    rw [hdfi]
    exact idf_anti (documentFrequency_le_length corpus _)
  · intro hN i j hi hj hall hone
    rw [fittedIdfs_getD hi, fittedIdfs_getD hj]
    have hdfi : documentFrequency corpus ((buildVocabulary corpus).getD i []) =
        corpus.length := documentFrequency_eq_length hall
    rw [hdfi, hone]
    exact idf_strict_anti (by omega)

/-- Witness for C5 (amended): on the three-document corpus, "the" (in
every document, index 7) gets a strictly smaller idf than "quick" (in one
document, index 6). -/
theorem claim_C5_witness :
    tfidfEx.idf_.getD 7 0 < tfidfEx.idf_.getD 6 0 :=
  ((claim_C5 exampleCorpus3 tfidfEx (by decide) exampleVocab (by decide)).2.2
    (by decide) 7 6 (by decide) (by decide) (by decide) (by decide))

/-- C6: for every fitted Count Encoder and every document, `transform`
succeeds with a count row, and that row is unchanged when the document's
out-of-vocabulary tokens are removed — OOV tokens are silently ignored;
the TF-IDF Encoder fitted on the same corpus likewise transforms every
document without error; in particular a document containing only
out-of-vocabulary tokens maps to the all-zero vector of vocabulary length
under both encoders, with no error. -/
theorem claim_C6 :
    ∀ corpus v, CountVectorizer.fit corpus = .ok v →
      ∀ vocab, v.vocabulary_ = some vocab →
      ∀ doc : String,
        v.transform [doc] = .ok [countsFor vocab doc] ∧
        countsFor vocab doc = (vocab.map fun t =>
          ((tokenize doc).filter fun u => decide (u ∈ vocab)).count t) ∧
        (∀ w, TfidfVectorizer.fit corpus = .ok w →
          w.transform [doc] = .ok [tfidfRow vocab w.idf_ doc]) ∧
        ((∀ t ∈ tokenize doc, t ∉ vocab) →
          v.transform [doc] = .ok [vocab.map fun _ => 0] ∧
          ∀ w, TfidfVectorizer.fit corpus = .ok w →
            w.transform [doc] = .ok [vocab.map fun _ => (0 : ℝ)]) := by
  intro corpus v hfit vocab hvocab doc
  have hv := countFit_ok hfit
  have hvv : vocab = buildVocabulary corpus := by
    rw [hv] at hvocab
    exact (Option.some.injEq _ _ ▸ hvocab).symm
  have htr : v.transform [doc] = .ok [countsFor vocab doc] := by
    unfold CountVectorizer.transform
    rw [hvocab]
    rfl
  refine ⟨htr, ?_, ?_, ?_⟩
  · unfold countsFor
    refine List.map_congr_left ?_
    intro t ht
    exact (List.count_filter (by simpa using ht)).symm
  · intro w hw
    have hwv := tfidfFit_ok hw
    subst hvv
    subst hwv
    unfold TfidfVectorizer.transform
    rfl
  · intro hoov
    constructor
    · rw [htr, countsFor_eq_zeros hoov]
    · intro w hw
      have hwv := tfidfFit_ok hw
      subst hvv
      subst hwv
      unfold TfidfVectorizer.transform
      simp only [List.map_cons, List.map_nil]
      rw [show (⟨some (buildVocabulary corpus), corpus.length,
          (buildVocabulary corpus).map (documentFrequency corpus)⟩ :
          TfidfVectorizer).idf_ = fittedIdfs corpus from rfl]
      rw [tfidfRow_eq_zeros (fittedIdfs_length corpus) hoov]

/-- Witness for C6: the mixed document "the puppy" (one in-vocabulary
token, one out-of-vocabulary token) transforms without error and its
counts ignore the OOV token, and the all-OOV document "zzz yyy" yields
the all-zero vector with no error. -/
theorem claim_C6_witness :
    (CountVectorizer.mk (some exampleVocab)).transform ["the puppy"] =
      .ok [countsFor exampleVocab "the puppy"] ∧
    countsFor exampleVocab "the puppy" = (exampleVocab.map fun t =>
      ((tokenize "the puppy").filter fun u => decide (u ∈ exampleVocab)).count t) ∧
    (CountVectorizer.mk (some exampleVocab)).transform ["zzz yyy"] =
      .ok [exampleVocab.map fun _ => 0] := by
  refine ⟨?_, ?_, ?_⟩
  · exact (claim_C6 [exampleDoc] (CountVectorizer.mk (some exampleVocab)) (by decide)
      exampleVocab (by decide) "the puppy").1
  · exact (claim_C6 [exampleDoc] (CountVectorizer.mk (some exampleVocab)) (by decide)
      exampleVocab (by decide) "the puppy").2.1
  · exact ((claim_C6 [exampleDoc] (CountVectorizer.mk (some exampleVocab)) (by decide)
      exampleVocab (by decide) "zzz yyy").2.2.2 (by decide)).1

/-- C7: for every Hashing Encoder with positive width `W` and every
document — with no fit ever performed — the output row has length exactly
`W`; every token of the document is accumulated into the slot
`hash(token) mod W`, which is a valid index, so unseen tokens have no
failure mode; and transforming a document list yields one width-`W` row
per document. -/
theorem claim_C7 :
    ∀ (W : Nat) (hash : List Char → Nat) (sign : List Char → Bool), 0 < W →
      (∀ doc : String,
        (hashRow W hash sign doc).length = W ∧
        (rawHashRow W hash sign doc).length = W ∧
        ∀ t ∈ tokenize doc,
          hash t % W < W ∧
          (rawHashRow W hash sign doc).getD (hash t % W) 0 =
            signedCount (tokenize doc) hash sign W (hash t % W) ∧
          t ∈ (tokenize doc).filter fun u => hash u % W == hash t % W) ∧
      ∀ docs : List String,
        ((HashingVectorizer.mk W).transform hash sign docs).length = docs.length ∧
        ∀ row ∈ (HashingVectorizer.mk W).transform hash sign docs,
          row.length = W := by
  intro W hash sign hW
  constructor
  · intro doc
    refine ⟨hashRow_length W hash sign doc, rawHashRow_length W hash sign doc, ?_⟩
    intro t ht
    have hslot : hash t % W < W := Nat.mod_lt _ hW
    refine ⟨hslot, rawHashRow_getD hash sign doc hslot, ?_⟩
    refine List.mem_filter.mpr ⟨ht, ?_⟩
    simp
  · intro docs
    constructor
    · unfold HashingVectorizer.transform
      exact List.length_map _ _
    · intro row hrow
      unfold HashingVectorizer.transform at hrow
      rcases List.mem_map.mp hrow with ⟨d, _, rfl⟩
      exact hashRow_length W hash sign d

/-- Witness for C7: with width 20 and a constant hash, the notebook's
example document transforms to a single row of length 20 — shape
(1, 20). -/
theorem claim_C7_witness :
    ((HashingVectorizer.mk 20).transform (fun _ => 0) (fun _ => true)
        [exampleDoc]).length = 1 ∧
    ∀ row ∈ (HashingVectorizer.mk 20).transform (fun _ => 0) (fun _ => true)
        [exampleDoc], row.length = 20 :=
  (claim_C7 20 (fun _ => 0) (fun _ => true) (by decide)).2 [exampleDoc]

/-- C8: on a Count or TF-IDF Encoder with no successful fit (no stored
vocabulary), `transform` fails with `NotFittedError` for every document
list; in this pure model the encoder value itself is unchanged, so it
remains unfitted. -/
theorem claim_C8 :
    ∀ (v : CountVectorizer), v.vocabulary_ = none →
      ∀ (w : TfidfVectorizer), w.vocabulary_ = none →
      ∀ docs : List String,
        v.transform docs = .error .notFitted ∧
        w.transform docs = .error .notFitted := by
  intro v hv w hw docs
  constructor
  · unfold CountVectorizer.transform
    rw [hv]
  · unfold TfidfVectorizer.transform
    rw [hw]

/-- Witness for C8: the default (unfitted) encoders reject the example
document with `NotFittedError`. -/
theorem claim_C8_witness :
    (CountVectorizer.mk none).transform [exampleDoc] = .error .notFitted ∧
    (TfidfVectorizer.mk none 0 []).transform [exampleDoc] = .error .notFitted :=
  claim_C8 (CountVectorizer.mk none) rfl (TfidfVectorizer.mk none 0 []) rfl [exampleDoc]

/-- A sparse count vector is exactly the nonzero entries: every stored
pair is nonzero, and every index without a stored pair holds zero. -/
def sparseOkN (v : List Nat) : Prop :=
  (∀ p ∈ sparsifyN v, p.2 ≠ 0) ∧
  ∀ i, i < v.length → (∀ p ∈ sparsifyN v, p.1 ≠ i) → v.getD i 0 = 0

/-- A sparse real vector is exactly the nonzero entries: every stored
pair is nonzero, and every index without a stored pair holds zero. -/
def sparseOkR (v : List ℝ) : Prop :=
  (∀ p ∈ sparsifyR v, p.2 ≠ 0) ∧
  ∀ i, i < v.length → (∀ p ∈ sparsifyR v, p.1 ≠ i) → v.getD i 0 = 0

theorem sparseOkN_all (v : List Nat) : sparseOkN v := by
  constructor
  · intro p hp
    exact (sparsifyN_sound hp).1
  · intro i hi hnone
    by_contra hne
    rcases sparsifyN_complete hi hne with ⟨p, hp, hp1, _⟩
    exact hnone p hp hp1

theorem sparseOkR_all (v : List ℝ) : sparseOkR v := by
  constructor
  · intro p hp
    exact (sparsifyR_sound hp).1
  · intro i hi hnone
    by_contra hne
    rcases sparsifyR_complete hi hne with ⟨p, hp, hp1, _⟩
    exact hnone p hp hp1

/-- C9: every sparse output vector produced by the encoders — a count row
of the Count Encoder, a normalized row of the TF-IDF Encoder, a hashed row
of the Hashing Encoder — is represented by its nonzero `(index, value)`
pairs only: stored values are never zero and unlisted indices are
implicitly zero. -/
theorem claim_C9 :
    ∀ (vocab : List (List Char)) (idfs : List ℝ) (W : Nat)
      (hash : List Char → Nat) (sign : List Char → Bool) (doc : String),
      sparseOkN (countsFor vocab doc) ∧
      sparseOkR (tfidfRow vocab idfs doc) ∧
      sparseOkR (hashRow W hash sign doc) :=
  fun vocab idfs W hash sign doc =>
    ⟨sparseOkN_all (countsFor vocab doc),
     sparseOkR_all (tfidfRow vocab idfs doc),
     sparseOkR_all (hashRow W hash sign doc)⟩

/-- Witness for C9: the sparse-representation property at the notebook's
example document and fitted vocabulary. -/
theorem claim_C9_witness :
    sparseOkN (countsFor exampleVocab exampleDoc) ∧
    sparseOkR (tfidfRow exampleVocab tfidfEx.idf_ exampleDoc) ∧
    sparseOkR (hashRow 20 (fun _ => 0) (fun _ => true) exampleDoc) :=
  claim_C9 exampleVocab tfidfEx.idf_ 20 (fun _ => 0) (fun _ => true) exampleDoc

theorem tfidfRow_length {vocab : List (List Char)} {idfs : List ℝ} (doc : String)
    (hlen : idfs.length = vocab.length) :
    (tfidfRow vocab idfs doc).length = vocab.length := by
  rw [tfidfRow, length_l2normalize, tfWeights_length _ _ _ hlen]

/-- C10: every encoder's `transform` returns one row per input document —
the result has as many rows as input documents, each row of the fitted
vocabulary's length (Count/TF-IDF) or of the configured width (Hashing),
so a single-document input produces shape `(1, width)`. -/
theorem claim_C10 :
    (∀ corpus v, CountVectorizer.fit corpus = .ok v →
      ∀ vocab, v.vocabulary_ = some vocab →
      ∀ docs rows, v.transform docs = .ok rows →
        rows.length = docs.length ∧ ∀ r ∈ rows, r.length = vocab.length) ∧
    (∀ corpus w, TfidfVectorizer.fit corpus = .ok w →
      ∀ vocab, w.vocabulary_ = some vocab →
      ∀ docs rows, w.transform docs = .ok rows →
        rows.length = docs.length ∧ ∀ r ∈ rows, r.length = vocab.length) ∧
    (∀ (W : Nat) (hash : List Char → Nat) (sign : List Char → Bool)
        (docs : List String),
      ((HashingVectorizer.mk W).transform hash sign docs).length = docs.length ∧
      ∀ r ∈ (HashingVectorizer.mk W).transform hash sign docs, r.length = W) := by
  refine ⟨?_, ?_, ?_⟩
  · intro corpus v hfit vocab hvocab docs rows htr
    unfold CountVectorizer.transform at htr
    rw [hvocab] at htr
    injection htr with htr
    subst htr
    refine ⟨List.length_map _ _, ?_⟩
    intro r hr
    rcases List.mem_map.mp hr with ⟨d, _, rfl⟩
    exact countsFor_length vocab d
  · intro corpus w hfit vocab hvocab docs rows htr
    have hw := tfidfFit_ok hfit
    have hvv : vocab = buildVocabulary corpus := by
      rw [hw] at hvocab
      exact (Option.some.injEq _ _ ▸ hvocab).symm
    have hidf : w.idf_ = fittedIdfs corpus := tfidfFit_idf_ok hfit
    unfold TfidfVectorizer.transform at htr
    rw [hvocab] at htr
    injection htr with htr
    subst htr
    refine ⟨List.length_map _ _, ?_⟩
    intro r hr
    rcases List.mem_map.mp hr with ⟨d, _, rfl⟩
    rw [hidf, hvv]
    exact tfidfRow_length d (fittedIdfs_length corpus)
  · intro W hash sign docs
    refine ⟨List.length_map _ _, ?_⟩
    intro r hr
    rcases List.mem_map.mp hr with ⟨d, _, rfl⟩
    exact hashRow_length W hash sign d

/-- Witness for C10: the fitted Count Encoder maps the single example
document to exactly one row of vocabulary length. -/
theorem claim_C10_witness :
    ([[1, 1, 1, 1, 1, 1, 1, 2]] : List (List Nat)).length = [exampleDoc].length ∧
    ∀ r ∈ ([[1, 1, 1, 1, 1, 1, 1, 2]] : List (List Nat)),
      r.length = exampleVocab.length :=
  claim_C10.1 [exampleDoc] (CountVectorizer.mk (some exampleVocab)) (by decide)
    exampleVocab (by decide) [exampleDoc] [[1, 1, 1, 1, 1, 1, 1, 2]] (by decide)

end PrepareTextData
